import Mathlib

/-!
Verification of the roster store in src/src/lib.rs (gw2-player-list).

The Rust code keeps a `PlayerVecMap`: a `Vec<Player>` (`player_list`,
the ordered sequence) together with a `HashMap<String, usize>`
(`name_dict`, the name-to-position index).  We embed the store
shallowly: the vector becomes a `List Player` and the hash map becomes
a function `String → Option Nat` (a hash map has at most one value per
key; insertion is pointwise update, removal maps the key to `none`,
and the mutable iteration that shifts all stored indices becomes a
pointwise `Option.map`).  `Vec::remove` is embedded as
`List.eraseIdx`, which agrees with it on every in-bounds index; all
call sites in the code reach it with in-bounds indices.
-/

/-- The `Player` struct of lib.rs: name, its lowercase cache, comment,
its lowercase cache, and the `in_squad` presence flag. -/
structure Player where
  name : String
  lowercase_name : String
  comment : String
  lowercase_comment : String
  in_squad : Bool
deriving DecidableEq, Repr

/-- The `PlayerVecMap` struct of lib.rs: the ordered `player_list` and
the `name_dict` index from names to positions. -/
structure PlayerVecMap where
  player_list : List Player
  name_dict : String → Option Nat

/-- Embedding of `PlayerVecMap::new`. -/
def PlayerVecMap.new : PlayerVecMap :=
  { player_list := [], name_dict := fun _ => none }

/-- Embedding of `PlayerVecMap::is_deletable`: a user is deletable when the index
has its name and the player stored at that position has an empty
comment. -/
def PlayerVecMap.is_deletable (s : PlayerVecMap) (username : String) : Bool :=
  match s.name_dict username with
  | some idx =>
    match s.player_list[idx]? with
    | some player => player.comment == ""
    | none => false
  | none => false

/-- In-place update of the element at position `i` (the embedding of
`self.player_list[i].field = v`); out-of-range indices leave the list
unchanged. -/
def modifyAt {α : Type} (l : List α) (i : Nat) (f : α → α) : List α :=
  match l, i with
  | [], _ => []
  | a :: as, 0 => f a :: as
  | a :: as, i + 1 => a :: modifyAt as i f

/-- Embedding of `PlayerVecMap::delete_at`: remove position `index` from
`player_list` only, then decrement every stored index greater than
`index` (the left-shift compensation loop). -/
def PlayerVecMap.delete_at (s : PlayerVecMap) (index : Nat) : PlayerVecMap :=
  { player_list := s.player_list.eraseIdx index,
    name_dict := fun n => (s.name_dict n).map (fun idx => if idx > index then idx - 1 else idx) }

/-- Embedding of `PlayerVecMap::delete`: remove the name from `name_dict` (keeping
its old position), remove that position from `player_list`, and
decrement every remaining stored index greater than it. -/
def PlayerVecMap.delete (s : PlayerVecMap) (username : String) : PlayerVecMap :=
  match s.name_dict username with
  | some index =>
    { player_list := s.player_list.eraseIdx index,
      name_dict := fun n =>
        if n = username then none
        else (s.name_dict n).map (fun idx => if idx > index then idx - 1 else idx) }
  | none => s

/-- Embedding of `PlayerVecMap::user_left`: if the user is deletable, remove it
from `name_dict` and call `delete_at` with the removed position; then,
if the name is still in `name_dict`, clear the `in_squad` flag of the
player at its position.  (`.unwrap()` after a successful
`is_deletable` cannot fail; the `none` branch is unreachable.) -/
def PlayerVecMap.user_left (s : PlayerVecMap) (username : String) : PlayerVecMap :=
  let s1 :=
    if s.is_deletable username then
      match s.name_dict username with
      | some index =>
        PlayerVecMap.delete_at
          { s with name_dict := fun n => if n = username then none else s.name_dict n } index
      | none => s
    else s
  match s1.name_dict username with
  | some index =>
    { s1 with player_list := modifyAt s1.player_list index (fun p => { p with in_squad := false }) }
  | none => s1

/-- Embedding of `PlayerVecMap::add_player`: if the name is not a key of
`name_dict`, append a new player at the end and index it at the old
length.  Note the source sets `lowercase_comment` to the empty string
literal, not to the lowercase of `comment`. -/
def PlayerVecMap.add_player (s : PlayerVecMap) (username : String) (comment : String) :
    PlayerVecMap :=
  if (s.name_dict username).isNone then
    { player_list := s.player_list ++
        [{ name := username, lowercase_name := username.toLower,
           comment := comment, lowercase_comment := "", in_squad := false }],
      name_dict := fun n => if n = username then some s.player_list.length else s.name_dict n }
  else s

/-- Embedding of `PlayerVecMap::join`: `add_player` with the empty comment, then
set the `in_squad` flag of the player at the indexed position. -/
def PlayerVecMap.join (s : PlayerVecMap) (username : String) : PlayerVecMap :=
  let s1 := s.add_player username ""
  match s1.name_dict username with
  | some index =>
    { s1 with player_list := modifyAt s1.player_list index (fun p => { p with in_squad := true }) }
  | none => s1

/-- The collection loop of `PlayerVecMap::delete_all`: walk the (already
reversed) player list; for each player with an empty comment, remove its
name from the dictionary and record the stored position.  Returns the
final dictionary and the recorded positions in visit order. -/
def collectDoomed : List Player → (String → Option Nat) → ((String → Option Nat) × List Nat)
  | [], dict => (dict, [])
  | p :: ps, dict =>
    if p.comment == "" then
      match dict p.name with
      | some idx =>
        let r := collectDoomed ps (fun n => if n = p.name then none else dict n)
        (r.1, idx :: r.2)
      | none => collectDoomed ps dict
    else collectDoomed ps dict

/-- Clearing the `in_squad` flag (the `player.in_squad = false`
assignment performed on every player during the sweep). -/
def unsquad (p : Player) : Player := { p with in_squad := false }

/-- Embedding of `PlayerVecMap::delete_all`: one reverse pass clears every
`in_squad` flag and collects (highest position first) the dictionary
positions of the empty-comment players, removing their names from the
dictionary; then each collected position is deleted with `delete_at`
in collection order.  (The flag clearing is independent of the fields
the collection reads, so it is factored out as a `map`.) -/
def PlayerVecMap.delete_all (s : PlayerVecMap) : PlayerVecMap :=
  let pl := s.player_list.map unsquad
  let r := collectDoomed pl.reverse s.name_dict
  r.2.foldl (fun st idx => st.delete_at idx) { player_list := pl, name_dict := r.1 }

/-- The comment edit performed in `draw_window`: the text field writes
`player.comment` and, on change, refreshes `player.lowercase_comment`
with `to_lowercase`. -/
def PlayerVecMap.edit_comment (s : PlayerVecMap) (i : Nat) (text : String) : PlayerVecMap :=
  { s with player_list :=
      modifyAt s.player_list i (fun p => { p with comment := text, lowercase_comment := text.toLower }) }

/-- The sequence/index bijection of the store: every key of
`name_dict` maps to a position holding a player of that name, and
every player's name is a key of `name_dict` mapping to its position. -/
def wf (s : PlayerVecMap) : Prop :=
  (∀ n i, s.name_dict n = some i → ∃ p, s.player_list[i]? = some p ∧ p.name = n) ∧
  (∀ i p, s.player_list[i]? = some p → s.name_dict p.name = some i)

/-!
## Session adapter (init_extras, remove_user, add_user) and state

`State::new` starts with `self_name = ""` and
`flags.extras_initialized = false`; `init_extras` sets both when the
host passes an account name.  `remove_user` compares the departing
username with `self_name` and routes self-departures to `delete_all`
and all other departures to `user_left`.
-/

/-- The store-relevant part of the global `State`: the roster, the
local account name and the extras-initialized flag. -/
structure AdapterState where
  players : PlayerVecMap
  self_name : String
  extras_initialized : Bool

/-- Embedding of `State::new`: empty roster, empty self name, extras not
initialized. -/
def AdapterState.new : AdapterState :=
  { players := PlayerVecMap.new, self_name := "", extras_initialized := false }

/-- Embedding of `init_extras`: when the host passes the local account name, record
it and set the extras-initialized flag; otherwise do nothing. -/
def AdapterState.init_extras (st : AdapterState) (self? : Option String) : AdapterState :=
  match self? with
  | some n => { st with extras_initialized := true, self_name := n }
  | none => st

/-- Embedding of `remove_user`: departures of the self identity run `delete_all`,
all other departures run `user_left`. -/
def AdapterState.remove_user (st : AdapterState) (username : String) : AdapterState :=
  if username = st.self_name then { st with players := st.players.delete_all }
  else { st with players := st.players.user_left username }

/-- Embedding of `add_user`: joins of any identity other than the self identity run
`join`; a join of the self identity is ignored. -/
def AdapterState.add_user (st : AdapterState) (username : String) : AdapterState :=
  if username = st.self_name then st
  else { st with players := st.players.join username }

/-!
## Persistence: toml values, `Player::to_toml`, `init_player_list`,
and the player filter of `release`.
-/

/-- The fragment of `toml::Value` the player list traffic uses. -/
inductive TomlValue where
  | str (s : String)
  | integer (i : Int)
  | boolean (b : Bool)
  | array (vs : List TomlValue)
  | table (m : List (String × TomlValue))
deriving Repr

/-- Key lookup in a toml table (`Map::remove` reads the value stored
under the key; parsed toml tables have distinct keys). -/
def lookupTable (key : String) : List (String × TomlValue) → Option TomlValue
  | [] => none
  | (k, v) :: rest => if k = key then some v else lookupTable key rest

/-- Embedding of `Player::to_toml`: a table with the `name` and `comment` strings. -/
def Player.to_toml (p : Player) : TomlValue :=
  .table [("name", .str p.name), ("comment", .str p.comment)]

/-- The per-record body of the `filter_map` in `init_player_list`:
keep a record only when it is a table holding a string under `name`
and a string under `comment`; the loaded player caches the lowercase
forms and starts out of the squad. -/
def readPlayer (val : TomlValue) : Option Player :=
  match val with
  | .table properties =>
    match lookupTable "name" properties, lookupTable "comment" properties with
    | some (.str name), some (.str comment) =>
      some { name := name, lowercase_name := name.toLower,
             comment := comment, lowercase_comment := comment.toLower, in_squad := false }
    | _, _ => none
  | _ => none

/-- The `for (i, player) in player_list.iter().enumerate()` loop that
builds `player_map`: insert each name at its position, later
insertions overwriting earlier ones. -/
def build_player_map (ps : List Player) : String → Option Nat :=
  (ps.enumFrom 0).foldl (fun m ip => fun n => if n = ip.2.name then some ip.1 else m n)
    (fun _ => none)

/-- Embedding of `init_player_list`: read the `Players` array from the config (an
absent or non-array value yields the empty list), keep the records
`readPlayer` accepts, and index the result with `build_player_map`. -/
def init_player_list (config : List (String × TomlValue)) : PlayerVecMap :=
  let players := match lookupTable "Players" config with
    | some (.array players) => players
    | _ => []
  let player_list := players.filterMap readPlayer
  { player_list := player_list, name_dict := build_player_map player_list }

/-- The player serialization of `release`: keep `to_toml` of exactly
the players whose comment is non-empty, in sequence order. -/
def release_players (s : PlayerVecMap) : List TomlValue :=
  s.player_list.filterMap (fun player =>
    if player.comment != "" then some player.to_toml else none)

/-!
## Operation sequences over the store (for the bijection invariant)
-/

/-- One store operation, as named in the claim: join, add_player,
user_left, delete, delete_all. -/
inductive Op where
  | join (u : String)
  | add_player (u : String) (c : String)
  | user_left (u : String)
  | delete (u : String)
  | delete_all
deriving Repr

/-- Apply one operation to the store. -/
def applyOp (s : PlayerVecMap) : Op → PlayerVecMap
  | .join u => s.join u
  | .add_player u c => s.add_player u c
  | .user_left u => s.user_left u
  | .delete u => s.delete u
  | .delete_all => s.delete_all

/-- Apply a sequence of operations in order. -/
def applyOps (s : PlayerVecMap) (ops : List Op) : PlayerVecMap :=
  ops.foldl applyOp s

/-- The (name, comment) extraction the hydration filter performs, as
the spec describes it: a record contributes exactly when it is a
table with string values under the keys `name` and `comment`. -/
def extractNC (val : TomlValue) : Option (String × String) :=
  match val with
  | .table properties =>
    match lookupTable "name" properties, lookupTable "comment" properties with
    | some (.str name), some (.str comment) => some (name, comment)
    | _, _ => none
  | _ => none

/-- One host event handled by the adapter: the one-time self-identity
notification, a membership removal, or a membership addition. -/
inductive HostEvent where
  | extras (self? : Option String)
  | removed (u : String)
  | added (u : String)
deriving Repr

/-- Apply one host event to the adapter state. -/
def applyEvent (st : AdapterState) : HostEvent → AdapterState
  | .extras s? => st.init_extras s?
  | .removed u => st.remove_user u
  | .added u => st.add_user u

/-- Apply a sequence of host events in order. -/
def applyEvents (st : AdapterState) (evs : List HostEvent) : AdapterState :=
  evs.foldl applyEvent st



/-!
## List lemmas used by the invariant proofs
-/

theorem getElem?_some_lt {α : Type} {l : List α} {i : Nat} {p : α}
    (h : l[i]? = some p) : i < l.length := by
  induction l generalizing i with
  | nil => simp at h
  | cons a as ih =>
    cases i with
    | zero => simp
    | succ i' =>
      simp only [List.getElem?_cons_succ] at h
      simpa using Nat.succ_lt_succ (ih h)

theorem getElem?_eraseIdx_lt' {α : Type} (l : List α) (i j : Nat) (h : j < i) :
    (l.eraseIdx i)[j]? = l[j]? := by
  induction l generalizing i j with
  | nil => simp [List.eraseIdx]
  | cons a as ih =>
    cases i with
    | zero => omega
    | succ i' =>
      cases j with
      | zero => simp [List.eraseIdx]
      | succ j' =>
        simp only [List.eraseIdx, List.getElem?_cons_succ]
        exact ih i' j' (by omega)

theorem getElem?_eraseIdx_ge' {α : Type} (l : List α) (i j : Nat) (h : i ≤ j) :
    (l.eraseIdx i)[j]? = l[j + 1]? := by
  induction l generalizing i j with
  | nil => simp [List.eraseIdx]
  | cons a as ih =>
    cases i with
    | zero => simp [List.eraseIdx]
    | succ i' =>
      cases j with
      | zero => omega
      | succ j' =>
        simp only [List.eraseIdx, List.getElem?_cons_succ]
        exact ih i' j' (by omega)

theorem getElem?_modifyAt {α : Type} (l : List α) (i j : Nat) (f : α → α) :
    (modifyAt l i f)[j]? = if j = i then l[j]?.map f else l[j]? := by
  induction l generalizing i j with
  | nil => simp [modifyAt]
  | cons a as ih =>
    cases i with
    | zero =>
      cases j with
      | zero => simp [modifyAt]
      | succ j' => simp [modifyAt]
    | succ i' =>
      cases j with
      | zero => simp [modifyAt]
      | succ j' =>
        simp only [modifyAt, List.getElem?_cons_succ, ih i' j']
        by_cases hji : j' = i' <;> simp [hji]

theorem getElem?_append_lt' {α : Type} (l l' : List α) (j : Nat) (h : j < l.length) :
    (l ++ l')[j]? = l[j]? := by
  induction l generalizing j with
  | nil => simp at h
  | cons a as ih =>
    cases j with
    | zero => simp
    | succ j' =>
      simp only [List.cons_append, List.getElem?_cons_succ]
      exact ih j' (by simpa using Nat.lt_of_succ_lt_succ h)

theorem getElem?_append_len {α : Type} (l : List α) (a : α) :
    (l ++ [a])[l.length]? = some a := by
  induction l with
  | nil => simp
  | cons b bs ih => simp [ih]

theorem getElem?_append_cases {α : Type} (l : List α) (a : α) (j : Nat) (p : α)
    (h : (l ++ [a])[j]? = some p) :
    l[j]? = some p ∨ (j = l.length ∧ p = a) := by
  induction l generalizing j with
  | nil =>
    cases j with
    | zero => simp at h; simp [h]
    | succ j' => simp at h
  | cons b bs ih =>
    cases j with
    | zero => simp at h ⊢; simp [h]
    | succ j' =>
      simp only [List.cons_append, List.getElem?_cons_succ] at h ⊢
      rcases ih j' h with h' | ⟨hj, hp⟩
      · exact Or.inl h'
      · exact Or.inr ⟨by simp [hj], hp⟩

theorem filter_eraseIdx {α : Type} (q : α → Bool) (l : List α) (i : Nat) (p : α)
    (h : l[i]? = some p) (hq : q p = false) :
    (l.eraseIdx i).filter q = l.filter q := by
  induction l generalizing i with
  | nil => simp at h
  | cons a as ih =>
    cases i with
    | zero =>
      simp only [List.getElem?_cons_zero] at h
      cases h
      simp [List.eraseIdx, List.filter_cons, hq]
    | succ i' =>
      simp only [List.getElem?_cons_succ] at h
      simp only [List.eraseIdx, List.filter_cons]
      cases hqa : q a <;> simp [ih i' h]

theorem mem_iff_getElem? {α : Type} (l : List α) (p : α) :
    p ∈ l ↔ ∃ i : Nat, l[i]? = some p := by
  induction l with
  | nil => simp
  | cons a as ih =>
    constructor
    · intro hmem
      rcases List.mem_cons.mp hmem with h | h
      · exact ⟨0, by simp [h]⟩
      · rcases ih.mp h with ⟨i, hi⟩
        exact ⟨i + 1, by simpa using hi⟩
    · rintro ⟨i, hi⟩
      cases i with
      | zero => simp at hi; simp [hi]
      | succ i' =>
        simp only [List.getElem?_cons_succ] at hi
        exact List.mem_cons_of_mem _ (ih.mpr ⟨i', hi⟩)

theorem filter_eq_self_of_all {α : Type} (q : α → Bool) (l : List α)
    (h : ∀ p ∈ l, q p = true) : l.filter q = l := by
  induction l with
  | nil => rfl
  | cons a as ih =>
    simp only [List.filter_cons, h a (by simp)]
    simp [ih (fun p hp => h p (List.mem_cons_of_mem _ hp))]

/-!
## Preservation of the bijection invariant
-/

theorem wf_new : wf PlayerVecMap.new := by
  constructor
  · intro n i h
    exact absurd h (by simp [PlayerVecMap.new])
  · intro i p h
    replace h : ([] : List Player)[i]? = some p := h
    simp at h

theorem wf_name_inj {s : PlayerVecMap} (h : wf s) {i j : Nat} {p q : Player}
    (hi : s.player_list[i]? = some p) (hj : s.player_list[j]? = some q)
    (hname : p.name = q.name) : i = j := by
  have h1 := h.2 i p hi
  have h2 := h.2 j q hj
  rw [hname] at h1
  rw [h1] at h2
  exact Option.some.inj h2

/-- The common shape of every deletion path: erase position `index`
from the sequence, drop the key `u` (stored at `index`) from the
index, and shift every other stored index past `index` down by one. -/
theorem wf_erase {l : List Player} {d : String → Option Nat} {u : String} {index : Nat}
    (h : wf ⟨l, d⟩) (hu : d u = some index) :
    wf ⟨l.eraseIdx index, fun n =>
      if n = u then none
      else (d n).map (fun idx => if idx > index then idx - 1 else idx)⟩ := by
  have hfwd : ∀ n i, d n = some i → ∃ p, l[i]? = some p ∧ p.name = n := h.1
  have hbwd : ∀ i p, l[i]? = some p → d p.name = some i := h.2
  obtain ⟨pu, hpu, hpuname⟩ := hfwd u index hu
  constructor
  · intro n i hn
    replace hn : (if n = u then none
      else (d n).map (fun idx => if idx > index then idx - 1 else idx)) = some i := hn
    show ∃ p, (l.eraseIdx index)[i]? = some p ∧ p.name = n
    by_cases hnu : n = u
    · rw [if_pos hnu] at hn
      exact absurd hn (by simp)
    · rw [if_neg hnu] at hn
      cases hd : d n with
      | none => rw [hd] at hn; simp at hn
      | some idx =>
        rw [hd] at hn
        simp only [Option.map_some'] at hn
        have hni := Option.some.inj hn
        obtain ⟨p, hp, hpname⟩ := hfwd n idx hd
        have hne : idx ≠ index := by
          intro hEq
          rw [hEq, hpu] at hp
          have hppu : pu = p := Option.some.inj hp
          apply hnu
          rw [← hpname, ← hppu, hpuname]
        by_cases hgt : idx > index
        · rw [if_pos hgt] at hni
          subst hni
          refine ⟨p, ?_, hpname⟩
          rw [getElem?_eraseIdx_ge' l index (idx - 1) (by omega)]
          have hplus : idx - 1 + 1 = idx := by omega
          rw [hplus]
          exact hp
        · rw [if_neg hgt] at hni
          subst hni
          refine ⟨p, ?_, hpname⟩
          rw [getElem?_eraseIdx_lt' l index idx (by omega)]
          exact hp
  · intro i p hp
    replace hp : (l.eraseIdx index)[i]? = some p := hp
    show (if p.name = u then none
      else (d p.name).map (fun idx => if idx > index then idx - 1 else idx)) = some i
    by_cases hlt : i < index
    · rw [getElem?_eraseIdx_lt' l index i hlt] at hp
      have hd := hbwd i p hp
      have hnu : p.name ≠ u := by
        intro hEq
        rw [hEq, hu] at hd
        have := Option.some.inj hd
        omega
      rw [if_neg hnu, hd]
      simp only [Option.map_some']
      have hngt : ¬ i > index := by omega
      rw [if_neg hngt]
    · rw [getElem?_eraseIdx_ge' l index i (by omega)] at hp
      have hd := hbwd (i + 1) p hp
      have hnu : p.name ≠ u := by
        intro hEq
        rw [hEq, hu] at hd
        have := Option.some.inj hd
        omega
      rw [if_neg hnu, hd]
      simp only [Option.map_some']
      have hgt : i + 1 > index := by omega
      rw [if_pos hgt]
      simp

theorem wf_delete (s : PlayerVecMap) (u : String) (h : wf s) : wf (s.delete u) := by
  cases hu : s.name_dict u with
  | none =>
    have heq : s.delete u = s := by
      unfold PlayerVecMap.delete
      rw [hu]
    rw [heq]
    exact h
  | some index =>
    have heq : s.delete u = ⟨s.player_list.eraseIdx index, fun n =>
        if n = u then none
        else (s.name_dict n).map (fun idx => if idx > index then idx - 1 else idx)⟩ := by
      unfold PlayerVecMap.delete
      rw [hu]
    rw [heq]
    exact wf_erase h hu

/-- Rewriting one position with a name-preserving function keeps the
bijection. -/
theorem wf_modify {l : List Player} {d : String → Option Nat} (i : Nat) (f : Player → Player)
    (hf : ∀ p, (f p).name = p.name) (h : wf ⟨l, d⟩) :
    wf ⟨modifyAt l i f, d⟩ := by
  have hfwd : ∀ n j, d n = some j → ∃ p, l[j]? = some p ∧ p.name = n := h.1
  have hbwd : ∀ j p, l[j]? = some p → d p.name = some j := h.2
  constructor
  · intro n j hn
    replace hn : d n = some j := hn
    obtain ⟨p, hp, hpname⟩ := hfwd n j hn
    show ∃ q, (modifyAt l i f)[j]? = some q ∧ q.name = n
    rw [getElem?_modifyAt]
    by_cases hji : j = i
    · rw [if_pos hji, hp]
      exact ⟨f p, rfl, by rw [hf]; exact hpname⟩
    · rw [if_neg hji]
      exact ⟨p, hp, hpname⟩
  · intro j p hp
    replace hp : (modifyAt l i f)[j]? = some p := hp
    show d p.name = some j
    rw [getElem?_modifyAt] at hp
    by_cases hji : j = i
    · rw [if_pos hji] at hp
      cases hl : l[j]? with
      | none => rw [hl] at hp; simp at hp
      | some q =>
        rw [hl] at hp
        simp only [Option.map_some'] at hp
        have hq : f q = p := Option.some.inj hp
        rw [← hq, hf]
        exact hbwd j q hl
    · rw [if_neg hji] at hp
      exact hbwd j p hp

theorem wf_add_player (s : PlayerVecMap) (u c : String) (h : wf s) :
    wf (s.add_player u c) := by
  cases hu : s.name_dict u with
  | some v =>
    have heq : s.add_player u c = s := by
      unfold PlayerVecMap.add_player
      rw [hu]
      simp
    rw [heq]
    exact h
  | none =>
    have heq : s.add_player u c = ⟨s.player_list ++ [⟨u, u.toLower, c, "", false⟩],
        fun n => if n = u then some s.player_list.length else s.name_dict n⟩ := by
      unfold PlayerVecMap.add_player
      rw [hu]
      simp
    rw [heq]
    have hfwd : ∀ n i, s.name_dict n = some i →
        ∃ p, s.player_list[i]? = some p ∧ p.name = n := h.1
    have hbwd : ∀ i p, s.player_list[i]? = some p → s.name_dict p.name = some i := h.2
    constructor
    · intro n i hn
      replace hn : (if n = u then some s.player_list.length else s.name_dict n) = some i := hn
      show ∃ p, (s.player_list ++ [⟨u, u.toLower, c, "", false⟩])[i]? = some p ∧ p.name = n
      by_cases hnu : n = u
      · rw [if_pos hnu] at hn
        have hi : s.player_list.length = i := Option.some.inj hn
        subst hi
        exact ⟨_, getElem?_append_len _ _, by simp [hnu]⟩
      · rw [if_neg hnu] at hn
        obtain ⟨p, hp, hpname⟩ := hfwd n i hn
        refine ⟨p, ?_, hpname⟩
        rw [getElem?_append_lt' _ _ i (getElem?_some_lt hp)]
        exact hp
    · intro i p hp
      replace hp : (s.player_list ++ [⟨u, u.toLower, c, "", false⟩])[i]? = some p := hp
      show (if p.name = u then some s.player_list.length else s.name_dict p.name) = some i
      rcases getElem?_append_cases _ _ _ _ hp with hp' | ⟨hi, hpv⟩
      · have hd := hbwd i p hp'
        have hnu : p.name ≠ u := by
          intro hEq
          rw [hEq, hu] at hd
          exact Option.noConfusion hd
        rw [if_neg hnu]
        exact hd
      · subst hi
        subst hpv
        simp

theorem wf_join (s : PlayerVecMap) (u : String) (h : wf s) : wf (s.join u) := by
  have h1 := wf_add_player s u "" h
  cases hd : (s.add_player u "").name_dict u with
  | none =>
    have heq : s.join u = s.add_player u "" := by
      simp only [PlayerVecMap.join, hd]
    rw [heq]
    exact h1
  | some index =>
    have heq : s.join u = ⟨modifyAt (s.add_player u "").player_list index
        (fun p => { p with in_squad := true }), (s.add_player u "").name_dict⟩ := by
      simp only [PlayerVecMap.join, hd]
    rw [heq]
    exact wf_modify index _ (fun p => rfl) h1

/-- The test `is_deletable` succeeds exactly when the index holds the name and
the player at the indexed position has an empty comment. -/
theorem is_deletable_iff (s : PlayerVecMap) (u : String) :
    s.is_deletable u = true ↔
      ∃ i p, s.name_dict u = some i ∧ s.player_list[i]? = some p ∧ p.comment = "" := by
  unfold PlayerVecMap.is_deletable
  cases hd : s.name_dict u with
  | none => simp
  | some idx =>
    cases hp : s.player_list[idx]? with
    | none => simp [hp]
    | some player => simp [hp]

theorem wf_user_left (s : PlayerVecMap) (u : String) (h : wf s) : wf (s.user_left u) := by
  by_cases hdel : s.is_deletable u = true
  · obtain ⟨index, p, hd, hp, hpc⟩ := (is_deletable_iff s u).mp hdel
    have heq : s.user_left u = ⟨s.player_list.eraseIdx index, fun n =>
        if n = u then none
        else (s.name_dict n).map (fun idx => if idx > index then idx - 1 else idx)⟩ := by
      simp only [PlayerVecMap.user_left, hdel, if_true, hd]
      have hsc : (PlayerVecMap.delete_at
          { s with name_dict := fun n => if n = u then none else s.name_dict n }
          index).name_dict u = none := by
        simp [PlayerVecMap.delete_at]
      rw [hsc]
      show PlayerVecMap.delete_at
          { s with name_dict := fun n => if n = u then none else s.name_dict n } index = _
      unfold PlayerVecMap.delete_at
      congr 1
      funext n
      by_cases hnu : n = u <;> simp [hnu]
    rw [heq]
    exact wf_erase h hd
  · have hdel' : s.is_deletable u = false := by
      cases hx : s.is_deletable u
      · rfl
      · exact absurd hx hdel
    cases hd : s.name_dict u with
    | none =>
      have heq : s.user_left u = s := by
        simp only [PlayerVecMap.user_left, hdel', hd, Bool.false_eq_true, if_false]
      rw [heq]
      exact h
    | some index =>
      have heq : s.user_left u =
          ⟨modifyAt s.player_list index (fun p => { p with in_squad := false }),
            s.name_dict⟩ := by
        simp only [PlayerVecMap.user_left, hdel', hd, Bool.false_eq_true, if_false]
      rw [heq]
      exact wf_modify index _ (fun p => rfl) h

/-!
## The sweep (`delete_all`)
-/

/-- The names the sweep prunes: names of players with an empty comment. -/
def doomedNames (l : List Player) : List String :=
  (l.filter (fun p => p.comment == "")).map Player.name

theorem mem_doomedNames {l : List Player} {n : String} :
    n ∈ doomedNames l ↔ ∃ p, p ∈ l ∧ p.comment = "" ∧ p.name = n := by
  simp only [doomedNames, List.mem_map, List.mem_filter, beq_iff_eq]
  constructor
  · rintro ⟨p, ⟨hp, hc⟩, hn⟩
    exact ⟨p, hp, hc, hn⟩
  · rintro ⟨p, hp, hc, hn⟩
    exact ⟨p, ⟨hp, hc⟩, hn⟩

/-- What the reverse collection pass computes when the dictionary maps
every player of `l` to its position: the final dictionary drops
exactly the doomed names, and the collected positions are exactly the
doomed positions, in strictly decreasing order. -/
theorem collectDoomed_spec (l : List Player) (d : String → Option Nat)
    (Hb : ∀ j p, l[j]? = some p → d p.name = some j) :
    (∀ n, n ∈ doomedNames l → (collectDoomed l.reverse d).1 n = none) ∧
    (∀ n, n ∉ doomedNames l → (collectDoomed l.reverse d).1 n = d n) ∧
    (∀ i : Nat, i ∈ (collectDoomed l.reverse d).2 ↔
      ∃ p, l[i]? = some p ∧ p.comment = "") ∧
    (collectDoomed l.reverse d).2.Pairwise (fun a b => b < a) := by
  induction l using List.reverseRecOn generalizing d with
  | nil =>
    refine ⟨?_, ?_, ?_, ?_⟩
    · intro n hn
      rw [mem_doomedNames] at hn
      obtain ⟨p, hp, -, -⟩ := hn
      simp at hp
    · intro n _
      simp [collectDoomed]
    · intro i
      simp [collectDoomed]
    · simp [collectDoomed]
  | append_singleton l0 a ih =>
    have hrev : (l0 ++ [a]).reverse = a :: l0.reverse := by simp
    have hlena : (l0 ++ [a])[l0.length]? = some a := getElem?_append_len _ _
    have hda : d a.name = some l0.length := Hb l0.length a hlena
    cases hac : (a.comment == "") with
    | true =>
      have hac' : a.comment = "" := by simpa using hac
      have hcomp : collectDoomed (l0 ++ [a]).reverse d =
          ((collectDoomed l0.reverse (fun n => if n = a.name then none else d n)).1,
            l0.length ::
              (collectDoomed l0.reverse (fun n => if n = a.name then none else d n)).2) := by
        rw [hrev]
        simp only [collectDoomed, hac, if_true, hda]
      have Hb1 : ∀ j p, l0[j]? = some p →
          (fun n => if n = a.name then none else d n) p.name = some j := by
        intro j p hp
        have hj := getElem?_some_lt hp
        have hfull : (l0 ++ [a])[j]? = some p := by
          rw [getElem?_append_lt' _ _ j hj]
          exact hp
        have hdp := Hb j p hfull
        have hne : p.name ≠ a.name := by
          intro hEq
          rw [hEq, hda] at hdp
          have := Option.some.inj hdp
          omega
        show (if p.name = a.name then none else d p.name) = some j
        rw [if_neg hne]
        exact hdp
      obtain ⟨ih1, ih2, ih3, ih4⟩ := ih (fun n => if n = a.name then none else d n) Hb1
      have haNotDoomed0 : a.name ∉ doomedNames l0 := by
        intro hmem
        rw [mem_doomedNames] at hmem
        obtain ⟨q, hq, -, hqname⟩ := hmem
        obtain ⟨j, hj⟩ := (mem_iff_getElem? l0 q).mp hq
        have hjlen := getElem?_some_lt hj
        have hfull : (l0 ++ [a])[j]? = some q := by
          rw [getElem?_append_lt' _ _ j hjlen]
          exact hj
        have hdq := Hb j q hfull
        rw [hqname, hda] at hdq
        have := Option.some.inj hdq
        omega
      rw [hcomp]
      refine ⟨?_, ?_, ?_, ?_⟩
      · intro n hn
        rw [mem_doomedNames] at hn
        obtain ⟨p, hp, hpc, hpn⟩ := hn
        rcases List.mem_append.mp hp with hp0 | hpa
        · exact ih1 n (mem_doomedNames.mpr ⟨p, hp0, hpc, hpn⟩)
        · have hpa' : p = a := by simpa using hpa
          subst hpa'
          subst hpn
          rw [ih2 p.name haNotDoomed0]
          simp
      · intro n hn
        have hn0 : n ∉ doomedNames l0 := by
          intro hmem
          apply hn
          rw [mem_doomedNames] at hmem ⊢
          obtain ⟨p, hp, hpc, hpn⟩ := hmem
          exact ⟨p, List.mem_append.mpr (Or.inl hp), hpc, hpn⟩
        have hna : n ≠ a.name := by
          intro hEq
          apply hn
          rw [mem_doomedNames]
          exact ⟨a, List.mem_append.mpr (Or.inr (by simp)), hac', hEq.symm⟩
        rw [ih2 n hn0]
        simp [hna]
      · intro i
        constructor
        · intro hi
          rcases List.mem_cons.mp hi with hi0 | hir
          · subst hi0
            exact ⟨a, hlena, hac'⟩
          · obtain ⟨p, hp, hpc⟩ := (ih3 i).mp hir
            refine ⟨p, ?_, hpc⟩
            rw [getElem?_append_lt' _ _ i (getElem?_some_lt hp)]
            exact hp
        · rintro ⟨p, hpi, hpc⟩
          rcases getElem?_append_cases _ _ _ _ hpi with hp0 | ⟨hi, hpa⟩
          · exact List.mem_cons_of_mem _ ((ih3 i).mpr ⟨p, hp0, hpc⟩)
          · subst hi
            exact List.mem_cons_self _ _
      · rw [List.pairwise_cons]
        refine ⟨?_, ih4⟩
        intro b hb
        obtain ⟨p, hp, -⟩ := (ih3 b).mp hb
        exact getElem?_some_lt hp
    | false =>
      have hac' : a.comment ≠ "" := by simpa using hac
      have hcomp : collectDoomed (l0 ++ [a]).reverse d = collectDoomed l0.reverse d := by
        rw [hrev]
        simp only [collectDoomed, hac, Bool.false_eq_true, if_false]
      have Hb0 : ∀ j p, l0[j]? = some p → d p.name = some j := by
        intro j p hp
        have hj := getElem?_some_lt hp
        have hfull : (l0 ++ [a])[j]? = some p := by
          rw [getElem?_append_lt' _ _ j hj]
          exact hp
        exact Hb j p hfull
      obtain ⟨ih1, ih2, ih3, ih4⟩ := ih d Hb0
      have hdoomEq : doomedNames (l0 ++ [a]) = doomedNames l0 := by
        simp [doomedNames, List.filter_append, hac]
      rw [hcomp, hdoomEq]
      refine ⟨ih1, ih2, ?_, ih4⟩
      intro i
      rw [ih3 i]
      constructor
      · rintro ⟨p, hp, hpc⟩
        refine ⟨p, ?_, hpc⟩
        rw [getElem?_append_lt' _ _ i (getElem?_some_lt hp)]
        exact hp
      · rintro ⟨p, hpi, hpc⟩
        rcases getElem?_append_cases _ _ _ _ hpi with hp0 | ⟨hi, hpa⟩
        · exact ⟨p, hp0, hpc⟩
        · subst hpa
          exact absurd hpc hac'

/-- The deletion phase of the sweep: folding `delete_at` over a
strictly decreasing list of exactly the empty-comment positions, with
a dictionary that indexes exactly the non-doomed players, leaves the
non-doomed players (in order) and a well-formed store. -/
theorem foldl_delete_at_spec (dl : List Nat) (m : List Player) (d : String → Option Nat)
    (I1 : ∀ i ∈ dl, ∃ p, m[i]? = some p ∧ p.comment = "")
    (I2 : ∀ j p, m[j]? = some p → p.comment = "" → j ∈ dl)
    (I3 : ∀ j p, m[j]? = some p → p.comment ≠ "" → d p.name = some j)
    (I4 : ∀ n j, d n = some j → ∃ p, m[j]? = some p ∧ p.name = n ∧ p.comment ≠ "")
    (I5 : dl.Pairwise (fun a b => b < a)) :
    (dl.foldl (fun st idx => st.delete_at idx) (⟨m, d⟩ : PlayerVecMap)).player_list
        = m.filter (fun p => p.comment != "") ∧
    wf (dl.foldl (fun st idx => st.delete_at idx) (⟨m, d⟩ : PlayerVecMap)) := by
  induction dl generalizing m d with
  | nil =>
    refine ⟨?_, ?_, ?_⟩
    · show m = m.filter (fun p => p.comment != "")
      symm
      apply filter_eq_self_of_all
      intro p hp
      obtain ⟨j, hj⟩ := (mem_iff_getElem? m p).mp hp
      by_cases hc : p.comment = ""
      · exact absurd (I2 j p hj hc) (List.not_mem_nil j)
      · simpa using hc
    · intro n i hn
      replace hn : d n = some i := hn
      obtain ⟨p, hp, hpname, -⟩ := I4 n i hn
      exact ⟨p, hp, hpname⟩
    · intro i p hp
      replace hp : m[i]? = some p := hp
      show d p.name = some i
      by_cases hc : p.comment = ""
      · exact absurd (I2 i p hp hc) (List.not_mem_nil i)
      · exact I3 i p hp hc
  | cons i dl' ih =>
    obtain ⟨p0, hp0, hp0c⟩ := I1 i (List.mem_cons_self _ _)
    have hpw := List.pairwise_cons.mp I5
    have hlt : ∀ j ∈ dl', j < i := hpw.1
    have I1' : ∀ j ∈ dl', ∃ p, (m.eraseIdx i)[j]? = some p ∧ p.comment = "" := by
      intro j hj
      obtain ⟨p, hp, hpc⟩ := I1 j (List.mem_cons_of_mem _ hj)
      refine ⟨p, ?_, hpc⟩
      rw [getElem?_eraseIdx_lt' m i j (hlt j hj)]
      exact hp
    have I2' : ∀ j p, (m.eraseIdx i)[j]? = some p → p.comment = "" → j ∈ dl' := by
      intro j p hp hc
      by_cases hji : j < i
      · rw [getElem?_eraseIdx_lt' m i j hji] at hp
        rcases List.mem_cons.mp (I2 j p hp hc) with hEq | hmem
        · omega
        · exact hmem
      · rw [getElem?_eraseIdx_ge' m i j (by omega)] at hp
        rcases List.mem_cons.mp (I2 (j + 1) p hp hc) with hEq | hmem
        · omega
        · have := hlt _ hmem
          omega
    have I3' : ∀ j p, (m.eraseIdx i)[j]? = some p → p.comment ≠ "" →
        (d p.name).map (fun idx => if idx > i then idx - 1 else idx) = some j := by
      intro j p hp hc
      by_cases hji : j < i
      · rw [getElem?_eraseIdx_lt' m i j hji] at hp
        rw [I3 j p hp hc]
        simp only [Option.map_some']
        have hngt : ¬ j > i := by omega
        rw [if_neg hngt]
      · rw [getElem?_eraseIdx_ge' m i j (by omega)] at hp
        rw [I3 (j + 1) p hp hc]
        simp only [Option.map_some']
        have hgt : j + 1 > i := by omega
        rw [if_pos hgt]
        simp
    have I4' : ∀ n j, (d n).map (fun idx => if idx > i then idx - 1 else idx) = some j →
        ∃ p, (m.eraseIdx i)[j]? = some p ∧ p.name = n ∧ p.comment ≠ "" := by
      intro n j hn
      cases hdn : d n with
      | none => rw [hdn] at hn; simp at hn
      | some j0 =>
        rw [hdn] at hn
        simp only [Option.map_some'] at hn
        have hj := Option.some.inj hn
        obtain ⟨p, hp, hpname, hpc⟩ := I4 n j0 hdn
        have hne : j0 ≠ i := by
          intro hEq
          rw [hEq, hp0] at hp
          have hpp : p0 = p := Option.some.inj hp
          rw [← hpp] at hpc
          exact hpc hp0c
        by_cases hgt : j0 > i
        · rw [if_pos hgt] at hj
          subst hj
          refine ⟨p, ?_, hpname, hpc⟩
          rw [getElem?_eraseIdx_ge' m i (j0 - 1) (by omega)]
          have hplus : j0 - 1 + 1 = j0 := by omega
          rw [hplus]
          exact hp
        · rw [if_neg hgt] at hj
          subst hj
          refine ⟨p, ?_, hpname, hpc⟩
          rw [getElem?_eraseIdx_lt' m i j0 (by omega)]
          exact hp
    have hstep : (i :: dl').foldl (fun st idx => st.delete_at idx)
          (⟨m, d⟩ : PlayerVecMap)
        = dl'.foldl (fun st idx => st.delete_at idx)
            ⟨m.eraseIdx i, fun n => (d n).map (fun idx => if idx > i then idx - 1 else idx)⟩ :=
      rfl
    rw [hstep]
    obtain ⟨ihl, ihwf⟩ := ih (m.eraseIdx i)
      (fun n => (d n).map (fun idx => if idx > i then idx - 1 else idx)) I1' I2' I3' I4' hpw.2
    refine ⟨?_, ihwf⟩
    rw [ihl]
    exact filter_eraseIdx _ m i p0 hp0 (by simp [hp0c])

/-- Behavior of `delete_all` on a well-formed store: the surviving sequence is
exactly the non-empty-comment players with their `in_squad` flags
cleared, and the store remains well-formed. -/
theorem delete_all_spec (s : PlayerVecMap) (h : wf s) :
    s.delete_all.player_list
        = (s.player_list.map unsquad).filter (fun p => p.comment != "") ∧
    wf s.delete_all := by
  have Hb' : ∀ j p, (s.player_list.map unsquad)[j]? = some p →
      s.name_dict p.name = some j := by
    intro j p hp
    rw [List.getElem?_map] at hp
    cases hl : s.player_list[j]? with
    | none => rw [hl] at hp; simp at hp
    | some q =>
      rw [hl] at hp
      simp only [Option.map_some'] at hp
      have hq : unsquad q = p := Option.some.inj hp
      have hname : p.name = q.name := by rw [← hq]; rfl
      rw [hname]
      exact h.2 j q hl
  obtain ⟨cd1, cd2, cd3, cd4⟩ :=
    collectDoomed_spec (s.player_list.map unsquad) s.name_dict Hb'
  have I3 : ∀ j p, (s.player_list.map unsquad)[j]? = some p → p.comment ≠ "" →
      (collectDoomed (s.player_list.map unsquad).reverse s.name_dict).1 p.name = some j := by
    intro j p hp hc
    have hnd : p.name ∉ doomedNames (s.player_list.map unsquad) := by
      intro hmem
      rw [mem_doomedNames] at hmem
      obtain ⟨q, hq, hqc, hqn⟩ := hmem
      obtain ⟨j', hj'⟩ := (mem_iff_getElem? _ q).mp hq
      have h1 := Hb' j' q hj'
      have h2 := Hb' j p hp
      rw [hqn] at h1
      rw [h1] at h2
      have hjj : j' = j := Option.some.inj h2
      subst hjj
      rw [hj'] at hp
      have hqp : q = p := Option.some.inj hp
      rw [hqp] at hqc
      exact hc hqc
    rw [cd2 p.name hnd]
    exact Hb' j p hp
  have I4 : ∀ n j,
      (collectDoomed (s.player_list.map unsquad).reverse s.name_dict).1 n = some j →
      ∃ p, (s.player_list.map unsquad)[j]? = some p ∧ p.name = n ∧ p.comment ≠ "" := by
    intro n j hn
    by_cases hmem : n ∈ doomedNames (s.player_list.map unsquad)
    · rw [cd1 n hmem] at hn
      exact absurd hn (by simp)
    · rw [cd2 n hmem] at hn
      obtain ⟨p, hp, hpname⟩ := h.1 n j hn
      have hp' : (s.player_list.map unsquad)[j]? = some (unsquad p) := by
        rw [List.getElem?_map, hp]
        rfl
      refine ⟨unsquad p, hp', hpname, ?_⟩
      intro hc
      apply hmem
      rw [mem_doomedNames]
      exact ⟨unsquad p, (mem_iff_getElem? _ _).mpr ⟨j, hp'⟩, hc, hpname⟩
  have hda : s.delete_all
      = (collectDoomed (s.player_list.map unsquad).reverse s.name_dict).2.foldl
          (fun st idx => st.delete_at idx)
          (⟨s.player_list.map unsquad,
            (collectDoomed (s.player_list.map unsquad).reverse s.name_dict).1⟩ :
              PlayerVecMap) := rfl
  rw [hda]
  exact foldl_delete_at_spec _ _ _
    (fun i hi => (cd3 i).mp hi)
    (fun j p hp hc => (cd3 j).mpr ⟨p, hp, hc⟩)
    I3 I4 cd4

/-!
## Reduction lemmas for the individual operations
-/

theorem add_player_absent_eq (s : PlayerVecMap) (u c : String)
    (hd : s.name_dict u = none) :
    s.add_player u c = ⟨s.player_list ++ [⟨u, u.toLower, c, "", false⟩],
      fun n => if n = u then some s.player_list.length else s.name_dict n⟩ := by
  unfold PlayerVecMap.add_player
  rw [hd]
  simp

theorem add_player_present_eq (s : PlayerVecMap) (u c : String) (i : Nat)
    (hd : s.name_dict u = some i) :
    s.add_player u c = s := by
  unfold PlayerVecMap.add_player
  rw [hd]
  simp

theorem modifyAt_modifyAt {α : Type} (l : List α) (i : Nat) (f g : α → α) :
    modifyAt (modifyAt l i f) i g = modifyAt l i (fun a => g (f a)) := by
  induction l generalizing i with
  | nil => rfl
  | cons a as ih =>
    cases i with
    | zero => rfl
    | succ i' => simp [modifyAt, ih]

theorem modifyAt_append_len {α : Type} (l : List α) (x : α) (f : α → α) :
    modifyAt (l ++ [x]) l.length f = l ++ [f x] := by
  induction l with
  | nil => rfl
  | cons a as ih => simp [modifyAt, ih]

theorem join_eq_of_present (s : PlayerVecMap) (u : String) (i : Nat)
    (hd : s.name_dict u = some i) :
    s.join u
      = ⟨modifyAt s.player_list i (fun p => { p with in_squad := true }), s.name_dict⟩ := by
  have h1 : s.add_player u "" = s := add_player_present_eq s u "" i hd
  simp only [PlayerVecMap.join, h1, hd]

theorem join_eq_of_absent (s : PlayerVecMap) (u : String) (hd : s.name_dict u = none) :
    s.join u = ⟨s.player_list ++ [⟨u, u.toLower, "", "", true⟩],
      fun n => if n = u then some s.player_list.length else s.name_dict n⟩ := by
  have h1 := add_player_absent_eq s u "" hd
  have hd1 : (s.add_player u "").name_dict u = some s.player_list.length := by
    rw [h1]
    simp
  simp only [PlayerVecMap.join, hd1]
  rw [h1]
  show (⟨modifyAt (s.player_list ++ [⟨u, u.toLower, "", "", false⟩]) s.player_list.length
      (fun p => { p with in_squad := true }),
    fun n => if n = u then some s.player_list.length else s.name_dict n⟩ : PlayerVecMap) = _
  rw [modifyAt_append_len]

theorem user_left_deletable_eq (s : PlayerVecMap) (u : String) (i : Nat) (p : Player)
    (hd : s.name_dict u = some i) (hp : s.player_list[i]? = some p) (hc : p.comment = "") :
    s.user_left u = ⟨s.player_list.eraseIdx i, fun n =>
      if n = u then none
      else (s.name_dict n).map (fun idx => if idx > i then idx - 1 else idx)⟩ := by
  have hdel : s.is_deletable u = true := (is_deletable_iff s u).mpr ⟨i, p, hd, hp, hc⟩
  simp only [PlayerVecMap.user_left, hdel, if_true, hd]
  have hsc : (PlayerVecMap.delete_at
      { s with name_dict := fun n => if n = u then none else s.name_dict n } i).name_dict u
      = none := by
    simp [PlayerVecMap.delete_at]
  rw [hsc]
  show PlayerVecMap.delete_at
      { s with name_dict := fun n => if n = u then none else s.name_dict n } i = _
  unfold PlayerVecMap.delete_at
  congr 1
  funext n
  by_cases hnu : n = u <;> simp [hnu]

theorem user_left_keep_eq (s : PlayerVecMap) (u : String) (i : Nat) (p : Player)
    (hd : s.name_dict u = some i) (hp : s.player_list[i]? = some p) (hc : p.comment ≠ "") :
    s.user_left u
      = ⟨modifyAt s.player_list i (fun q => { q with in_squad := false }), s.name_dict⟩ := by
  have hdel : s.is_deletable u = false := by
    cases hx : s.is_deletable u
    · rfl
    · obtain ⟨i', p', hd', hp', hc'⟩ := (is_deletable_iff s u).mp hx
      rw [hd] at hd'
      have hii : i = i' := Option.some.inj hd'
      subst hii
      rw [hp] at hp'
      have hpp := Option.some.inj hp'
      rw [← hpp] at hc'
      exact absurd hc' hc
  simp only [PlayerVecMap.user_left, hdel, Bool.false_eq_true, if_false, hd]

theorem user_left_absent_eq (s : PlayerVecMap) (u : String) (hd : s.name_dict u = none) :
    s.user_left u = s := by
  have hdel : s.is_deletable u = false := by
    cases hx : s.is_deletable u
    · rfl
    · obtain ⟨i', p', hd', -, -⟩ := (is_deletable_iff s u).mp hx
      rw [hd] at hd'
      exact Option.noConfusion hd'
  simp only [PlayerVecMap.user_left, hdel, Bool.false_eq_true, if_false, hd]

/-- A predicate holding at exactly one position is counted once. -/
theorem countP_eq_one_of_unique {α : Type} (q : α → Bool) (l : List α) (i : Nat) (p : α)
    (hp : l[i]? = some p) (hq : q p = true)
    (huniq : ∀ j x, l[j]? = some x → q x = true → j = i) :
    l.countP q = 1 := by
  induction l generalizing i with
  | nil => simp at hp
  | cons a as ih =>
    cases i with
    | zero =>
      have ha : a = p := by simpa using hp
      have hz : as.countP q = 0 := by
        rw [List.countP_eq_zero]
        intro x hx hqx
        obtain ⟨j, hj⟩ := (mem_iff_getElem? as x).mp hx
        have := huniq (j + 1) x (by simpa using hj) hqx
        omega
      rw [List.countP_cons, hz, ha, hq]
      simp
    | succ i' =>
      simp only [List.getElem?_cons_succ] at hp
      have hqa : q a = false := by
        cases hqa : q a
        · rfl
        · have := huniq 0 a (by simp) hqa
          omega
      have hone : as.countP q = 1 := by
        apply ih i' hp
        intro j x hj hqx
        have := huniq (j + 1) x (by simpa using hj) hqx
        omega
      rw [List.countP_cons, hone, hqa]
      simp

/-!
## Claims
-/

/-- C4: every deletion path re-indexes as specified: `delete` of a
name stored at position `p` erases position `p` from the sequence,
removes the key from the index, decrements every remaining index value
strictly greater than `p` by one and leaves values at most `p`
unchanged; and after inserting A, B, C in order and deleting B the
index maps A to 0 and C to 1 and iteration yields A then C. -/
theorem C4_delete_reindexing :
    (∀ (s : PlayerVecMap) (u : String) (p : Nat), s.name_dict u = some p →
      (s.delete u).player_list = s.player_list.eraseIdx p ∧
      (s.delete u).name_dict u = none ∧
      (∀ n q, n ≠ u → s.name_dict n = some q →
        (s.delete u).name_dict n = some (if q > p then q - 1 else q))) ∧
    ((((PlayerVecMap.new.add_player "A" "x").add_player "B" "y").add_player "C"
        "z").delete "B").name_dict "A" = some 0 ∧
    ((((PlayerVecMap.new.add_player "A" "x").add_player "B" "y").add_player "C"
        "z").delete "B").name_dict "C" = some 1 ∧
    ((((PlayerVecMap.new.add_player "A" "x").add_player "B" "y").add_player "C"
        "z").delete "B").player_list.map Player.name = ["A", "C"] := by
  refine ⟨?_, rfl, rfl, rfl⟩
  intro s u p hd
  have heq : s.delete u = ⟨s.player_list.eraseIdx p, fun n =>
      if n = u then none
      else (s.name_dict n).map (fun idx => if idx > p then idx - 1 else idx)⟩ := by
    unfold PlayerVecMap.delete
    rw [hd]
  rw [heq]
  refine ⟨rfl, by simp, ?_⟩
  intro n q hnu hq
  show (if n = u then none
    else (s.name_dict n).map (fun idx => if idx > p then idx - 1 else idx)) = _
  rw [if_neg hnu, hq]
  rfl

/-- Witness for C4 at a concrete store. -/
theorem C4_delete_reindexing_witness :
    ((((PlayerVecMap.new.add_player "A" "x").add_player "B" "y").add_player "C"
        "z").delete "B").name_dict "B" = none ∧
    ((((PlayerVecMap.new.add_player "A" "x").add_player "B" "y").add_player "C"
        "z").delete "B").name_dict "C" = some (if 2 > 1 then 2 - 1 else 2) :=
  ⟨(C4_delete_reindexing.1 _ "B" 1 rfl).2.1,
   (C4_delete_reindexing.1 _ "B" 1 rfl).2.2 "C" 2 (by decide) rfl⟩

/-- C7: `add_player` is idempotent creation: an absent name is
appended at the end with exactly the supplied comment and out of the
squad, and indexed at the old length; a present name leaves the store
completely unchanged. -/
theorem C7_add_or_get (s : PlayerVecMap) (u c : String) :
    (s.name_dict u = none →
      (s.add_player u c).player_list
          = s.player_list ++ [⟨u, u.toLower, c, "", false⟩] ∧
      (s.add_player u c).name_dict u = some s.player_list.length) ∧
    (∀ i, s.name_dict u = some i → s.add_player u c = s) := by
  constructor
  · intro hd
    rw [add_player_absent_eq s u c hd]
    exact ⟨rfl, by simp⟩
  · intro i hd
    exact add_player_present_eq s u c i hd

/-- Witness for C7 at a concrete store. -/
theorem C7_add_or_get_witness :
    ((PlayerVecMap.new.add_player "A" "hello").player_list
        = PlayerVecMap.new.player_list ++ [⟨"A", "A".toLower, "hello", "", false⟩]) ∧
    ((PlayerVecMap.new.add_player "A" "hello").add_player "A" "other"
        = PlayerVecMap.new.add_player "A" "hello") :=
  ⟨((C7_add_or_get PlayerVecMap.new "A" "hello").1 rfl).1,
   (C7_add_or_get (PlayerVecMap.new.add_player "A" "hello") "A" "other").2 0 rfl⟩

/-- C6 fails on the code: `add_player` stores the empty string in
`lowercase_comment` instead of the lowercase of the supplied comment,
so after the manual-add path (comment `Comment here`) the cache
invariant `lowercase_comment = lowercase(comment)` is broken. -/
theorem C6_lowercase_cache_bug :
    ((PlayerVecMap.new.add_player "A" "Comment here").player_list.map
        (fun p => (p.comment, p.lowercase_comment)))
      = [("Comment here", "")] ∧
    "Comment here".toLower = "comment here" ∧
    ("" : String) ≠ "comment here" := by
  refine ⟨rfl, ?_, by decide⟩
  simp only [String.toLower, String.map_eq]
  rfl

/-- C2: `user_left` on a name stored at position `i`: with an empty
comment the entry is removed from both the sequence and the index;
with a non-empty comment the entry survives at its position with
`in_squad` cleared, the comment unchanged, everything else untouched;
an absent name is a no-op. -/
theorem C2_mark_absent_or_delete (s : PlayerVecMap) (u : String) :
    (∀ i p, s.name_dict u = some i → s.player_list[i]? = some p → p.name = u →
      (p.comment = "" →
        (s.user_left u).player_list = s.player_list.eraseIdx i ∧
        (s.user_left u).name_dict u = none) ∧
      (p.comment ≠ "" →
        (s.user_left u).name_dict = s.name_dict ∧
        (s.user_left u).player_list[i]? = some { p with in_squad := false } ∧
        ∀ j : Nat, j ≠ i → (s.user_left u).player_list[j]? = s.player_list[j]?)) ∧
    (s.name_dict u = none → s.user_left u = s) := by
  constructor
  · intro i p hd hp hname
    constructor
    · intro hc
      rw [user_left_deletable_eq s u i p hd hp hc]
      exact ⟨rfl, by simp⟩
    · intro hc
      rw [user_left_keep_eq s u i p hd hp hc]
      refine ⟨rfl, ?_, ?_⟩
      · show (modifyAt s.player_list i (fun q => { q with in_squad := false }))[i]? = _
        rw [getElem?_modifyAt, if_pos rfl, hp]
        rfl
      · intro j hj
        show (modifyAt s.player_list i (fun q => { q with in_squad := false }))[j]?
          = s.player_list[j]?
        rw [getElem?_modifyAt, if_neg hj]
  · intro hd
    exact user_left_absent_eq s u hd

/-- Witness for C2 at concrete stores: removal of an uncommented
leaver, retention of a commented one, and the absent no-op. -/
theorem C2_mark_absent_or_delete_witness :
    (((PlayerVecMap.new.join "B").user_left "B").player_list
        = (PlayerVecMap.new.join "B").player_list.eraseIdx 0 ∧
      ((PlayerVecMap.new.join "B").user_left "B").name_dict "B" = none) ∧
    ((PlayerVecMap.new.add_player "A" "note").user_left "A").name_dict
        = (PlayerVecMap.new.add_player "A" "note").name_dict ∧
    PlayerVecMap.new.user_left "Z" = PlayerVecMap.new := by
  refine ⟨?_, ?_, ?_⟩
  · exact ((C2_mark_absent_or_delete (PlayerVecMap.new.join "B") "B").1 0
      ⟨"B", "B".toLower, "", "", true⟩ rfl rfl rfl).1 rfl
  · exact (((C2_mark_absent_or_delete (PlayerVecMap.new.add_player "A" "note") "A").1 0
      ⟨"A", "A".toLower, "note", "", false⟩ rfl rfl rfl).2 (by decide)).1
  · exact (C2_mark_absent_or_delete PlayerVecMap.new "Z").2 rfl

/-- C5: `join` is idempotent — joining twice equals joining once — and
the joined store holds exactly one entry named `u`, that entry is in
the squad, and when the name already existed only the `in_squad` flag
of its entry is set (index and all other fields untouched). -/
theorem C5_join_idempotent (s : PlayerVecMap) (u : String) (h : wf s) :
    (s.join u).join u = s.join u ∧
    (s.join u).player_list.countP (fun p => p.name == u) = 1 ∧
    (∃ i p, (s.join u).name_dict u = some i ∧ (s.join u).player_list[i]? = some p ∧
      p.name = u ∧ p.in_squad = true) ∧
    (∀ i, s.name_dict u = some i →
      (s.join u).name_dict = s.name_dict ∧
      (s.join u).player_list
        = modifyAt s.player_list i (fun p => { p with in_squad := true })) := by
  have hjoin : ∃ i p, (s.join u).name_dict u = some i ∧ (s.join u).player_list[i]? = some p ∧
      p.name = u ∧ p.in_squad = true := by
    cases hd : s.name_dict u with
    | some i =>
      obtain ⟨p, hp, hpname⟩ := h.1 u i hd
      refine ⟨i, { p with in_squad := true }, ?_, ?_, hpname, rfl⟩
      · rw [join_eq_of_present s u i hd]
        exact hd
      · rw [join_eq_of_present s u i hd]
        show (modifyAt s.player_list i (fun q => { q with in_squad := true }))[i]? = _
        rw [getElem?_modifyAt, if_pos rfl, hp]
        rfl
    | none =>
      refine ⟨s.player_list.length, ⟨u, u.toLower, "", "", true⟩, ?_, ?_, rfl, rfl⟩
      · rw [join_eq_of_absent s u hd]
        simp
      · rw [join_eq_of_absent s u hd]
        show (s.player_list ++ [⟨u, u.toLower, "", "", true⟩])[s.player_list.length]? = _
        exact getElem?_append_len _ _
  have hidem : (s.join u).join u = s.join u := by
    cases hd : s.name_dict u with
    | some i =>
      have h1 := join_eq_of_present s u i hd
      have hd1 : (s.join u).name_dict u = some i := by
        rw [h1]
        exact hd
      have h2 := join_eq_of_present (s.join u) u i hd1
      rw [h2, h1]
      show (⟨modifyAt (modifyAt s.player_list i (fun q => { q with in_squad := true })) i
          (fun q => { q with in_squad := true }), s.name_dict⟩ : PlayerVecMap) = _
      rw [modifyAt_modifyAt]
    | none =>
      have h1 := join_eq_of_absent s u hd
      have hd1 : (s.join u).name_dict u = some s.player_list.length := by
        rw [h1]
        simp
      have h2 := join_eq_of_present (s.join u) u s.player_list.length hd1
      rw [h2, h1]
      show (⟨modifyAt (s.player_list ++ [⟨u, u.toLower, "", "", true⟩]) s.player_list.length
          (fun q => { q with in_squad := true }),
        fun n => if n = u then some s.player_list.length else s.name_dict n⟩ : PlayerVecMap)
        = _
      rw [modifyAt_append_len]
  obtain ⟨i0, p0, hdi, hpi, hpname, hpsq⟩ := hjoin
  refine ⟨hidem, ?_, ⟨i0, p0, hdi, hpi, hpname, hpsq⟩, ?_⟩
  · have hwf1 := wf_join s u h
    apply countP_eq_one_of_unique _ _ i0 p0 hpi (by simp [hpname])
    intro j x hj hx
    have hxname : x.name = u := by simpa using hx
    have hj2 := hwf1.2 j x hj
    rw [hxname, hdi] at hj2
    exact (Option.some.inj hj2).symm
  · intro i hd
    rw [join_eq_of_present s u i hd]
    exact ⟨rfl, rfl⟩

/-- Witness for C5 at a concrete store. -/
theorem C5_join_idempotent_witness :
    (PlayerVecMap.new.join "A").join "A" = PlayerVecMap.new.join "A" ∧
    (PlayerVecMap.new.join "A").player_list.countP (fun p => p.name == "A") = 1 :=
  ⟨(C5_join_idempotent PlayerVecMap.new "A" wf_new).1,
   (C5_join_idempotent PlayerVecMap.new "A" wf_new).2.1⟩

/-- C3: after `delete_all`, no entry is in the squad; the surviving
sequence is exactly the non-empty-comment entries, in order, with
their flags cleared; every entry whose comment was empty is gone from
both the sequence and the index; every entry whose comment was
non-empty survives with its comment unchanged. -/
theorem C3_sweep_retainable (s : PlayerVecMap) (h : wf s) :
    s.delete_all.player_list
        = (s.player_list.map unsquad).filter (fun p => p.comment != "") ∧
    (∀ p ∈ s.delete_all.player_list, p.in_squad = false) ∧
    (∀ (i : Nat) (p : Player), s.player_list[i]? = some p → p.comment = "" →
      (∀ q ∈ s.delete_all.player_list, q.name ≠ p.name) ∧
      s.delete_all.name_dict p.name = none) ∧
    (∀ (i : Nat) (p : Player), s.player_list[i]? = some p → p.comment ≠ "" →
      ∃ q ∈ s.delete_all.player_list, q.name = p.name ∧ q.comment = p.comment ∧
        q.in_squad = false) := by
  obtain ⟨hlist, hwf⟩ := delete_all_spec s h
  refine ⟨hlist, ?_, ?_, ?_⟩
  · intro p hp
    rw [hlist] at hp
    have hp2 := List.mem_filter.mp hp
    obtain ⟨q, hq, hquns⟩ := List.mem_map.mp hp2.1
    rw [← hquns]
    rfl
  · intro i p hpi hpc
    have hqname : ∀ q ∈ s.delete_all.player_list, q.name ≠ p.name := by
      intro q hq hEq
      rw [hlist] at hq
      have hq2 := List.mem_filter.mp hq
      obtain ⟨q0, hq0, hq0uns⟩ := List.mem_map.mp hq2.1
      obtain ⟨j, hj⟩ := (mem_iff_getElem? _ q0).mp hq0
      have hq0name : q0.name = p.name := by
        rw [← hEq, ← hq0uns]
        rfl
      have hji : j = i := wf_name_inj h hj hpi hq0name
      subst hji
      rw [hj] at hpi
      have hq0p : q0 = p := Option.some.inj hpi
      have hqc : q.comment ≠ "" := by simpa using hq2.2
      apply hqc
      rw [← hq0uns]
      show q0.comment = ""
      rw [hq0p]
      exact hpc
    refine ⟨hqname, ?_⟩
    cases hdn : s.delete_all.name_dict p.name with
    | none => rfl
    | some j =>
      obtain ⟨q, hq, hqname'⟩ := hwf.1 p.name j hdn
      have hmem : q ∈ s.delete_all.player_list := (mem_iff_getElem? _ _).mpr ⟨j, hq⟩
      exact absurd hqname' (hqname q hmem)
  · intro i p hpi hpc
    have hmem0 : p ∈ s.player_list := (mem_iff_getElem? _ _).mpr ⟨i, hpi⟩
    refine ⟨unsquad p, ?_, rfl, rfl, rfl⟩
    rw [hlist]
    apply List.mem_filter.mpr
    constructor
    · exact List.mem_map.mpr ⟨p, hmem0, rfl⟩
    · show ((unsquad p).comment != "") = true
      simpa [unsquad] using hpc

/-- Witness for C3 at a concrete store. -/
theorem C3_sweep_retainable_witness :
    (PlayerVecMap.new.add_player "A" "note").delete_all.player_list
      = ((PlayerVecMap.new.add_player "A" "note").player_list.map unsquad).filter
          (fun p => p.comment != "") :=
  (C3_sweep_retainable (PlayerVecMap.new.add_player "A" "note")
    (wf_add_player PlayerVecMap.new "A" "note" wf_new)).1

/-- C1: starting from the empty store, every sequence of store
operations (join, add_player, user_left, delete, delete_all) preserves
the sequence/index bijection. -/
theorem C1_bijection_invariant (ops : List Op) : wf (applyOps PlayerVecMap.new ops) := by
  suffices h : ∀ s : PlayerVecMap, wf s → wf (applyOps s ops) from h PlayerVecMap.new wf_new
  induction ops with
  | nil =>
    intro s hs
    exact hs
  | cons op rest ih =>
    intro s hs
    show wf (applyOps (applyOp s op) rest)
    apply ih
    cases op with
    | join u => exact wf_join s u hs
    | add_player u c => exact wf_add_player s u c hs
    | user_left u => exact wf_user_left s u hs
    | delete u => exact wf_delete s u hs
    | delete_all => exact (delete_all_spec s hs).2

theorem remove_user_preserves_id (st : AdapterState) (u : String) :
    (st.remove_user u).self_name = st.self_name ∧
    (st.remove_user u).extras_initialized = st.extras_initialized := by
  unfold AdapterState.remove_user
  by_cases hx : u = st.self_name <;> simp [hx]

theorem add_user_preserves_id (st : AdapterState) (u : String) :
    (st.add_user u).self_name = st.self_name ∧
    (st.add_user u).extras_initialized = st.extras_initialized := by
  unfold AdapterState.add_user
  by_cases hx : u = st.self_name <;> simp [hx]

/-- Until `init_extras` has delivered an account name, the state still
carries the initial empty self name. -/
theorem unestablished_self_name (evs : List HostEvent) :
    (applyEvents AdapterState.new evs).extras_initialized = false →
    (applyEvents AdapterState.new evs).self_name = "" := by
  suffices h : ∀ st : AdapterState, (st.extras_initialized = false → st.self_name = "") →
      ((applyEvents st evs).extras_initialized = false →
        (applyEvents st evs).self_name = "") by
    exact h AdapterState.new (fun _ => rfl)
  induction evs with
  | nil =>
    intro st h
    exact h
  | cons e rest ih =>
    intro st h
    show (applyEvents (applyEvent st e) rest).extras_initialized = false → _
    apply ih
    cases e with
    | extras s? =>
      cases s? with
      | none => exact h
      | some n =>
        intro hfalse
        exact absurd hfalse (by simp [applyEvent, AdapterState.init_extras])
    | removed u =>
      intro hfalse
      replace hfalse : (st.remove_user u).extras_initialized = false := hfalse
      show (st.remove_user u).self_name = ""
      rw [(remove_user_preserves_id st u).1]
      apply h
      rw [← (remove_user_preserves_id st u).2]
      exact hfalse
    | added u =>
      intro hfalse
      replace hfalse : (st.add_user u).extras_initialized = false := hfalse
      show (st.add_user u).self_name = ""
      rw [(add_user_preserves_id st u).1]
      apply h
      rw [← (add_user_preserves_id st u).2]
      exact hfalse

/-- C9 counterexample: the claim that an unestablished self-identity
never triggers the sweep is false — a departure carrying the empty
name compares equal to the initial empty `self_name` and runs
`delete_all`, not `user_left`. -/
theorem C9_counterexample : ¬ (∀ (st : AdapterState) (u : String),
    st.extras_initialized = false →
    (st.remove_user u).players = st.players.user_left u) := by
  intro hclaim
  have h := hclaim ⟨PlayerVecMap.new.join "A", "", false⟩ "" rfl
  have hl : ((⟨PlayerVecMap.new.join "A", "", false⟩ : AdapterState).remove_user
      "").players.player_list = [] := rfl
  rw [h] at hl
  have hr : ((⟨PlayerVecMap.new.join "A", "", false⟩ : AdapterState).players.user_left
      "").player_list = [⟨"A", "A".toLower, "", "", true⟩] := rfl
  rw [hr] at hl
  exact List.noConfusion hl

/-- C9 (amended): a departure equal to the current self identity runs
`delete_all` and any other departure runs `user_left`; in a reachable
state where the self identity has not been established the self name
is still the empty string, so every departure with a non-empty name is
treated as a non-self departure. -/
theorem C9_departure_routing (st : AdapterState) (u : String) :
    (u = st.self_name → (st.remove_user u).players = st.players.delete_all) ∧
    (u ≠ st.self_name → (st.remove_user u).players = st.players.user_left u) ∧
    (st.extras_initialized = false → (∃ evs, st = applyEvents AdapterState.new evs) →
      u ≠ "" → (st.remove_user u).players = st.players.user_left u) := by
  refine ⟨?_, ?_, ?_⟩
  · intro hEq
    simp [AdapterState.remove_user, hEq]
  · intro hne
    simp [AdapterState.remove_user, hne]
  · intro hinit hreach hne
    obtain ⟨evs, hevs⟩ := hreach
    have hself : st.self_name = "" := by
      rw [hevs]
      apply unestablished_self_name
      rw [← hevs]
      exact hinit
    have hne' : u ≠ st.self_name := by
      rw [hself]
      exact hne
    simp [AdapterState.remove_user, hne']

/-- Witness for C9 at concrete states. -/
theorem C9_departure_routing_witness :
    ((AdapterState.new.remove_user "").players = AdapterState.new.players.delete_all) ∧
    ((AdapterState.new.remove_user "B").players
        = AdapterState.new.players.user_left "B") := by
  constructor
  · exact (C9_departure_routing AdapterState.new "").1 rfl
  · exact (C9_departure_routing AdapterState.new "B").2.2 rfl ⟨[], rfl⟩ (by decide)

theorem readPlayer_to_toml (p : Player) :
    readPlayer p.to_toml
      = some ⟨p.name, p.name.toLower, p.comment, p.comment.toLower, false⟩ := rfl

/-- A serialized non-empty-comment list reloads to the same
(name, comment) data. -/
theorem round_trip_list (l : List Player) :
    (l.filterMap (fun player =>
        if player.comment != "" then some player.to_toml else none)).filterMap readPlayer
      = (l.filter (fun p => p.comment != "")).map
          (fun p => ⟨p.name, p.name.toLower, p.comment, p.comment.toLower, false⟩) := by
  induction l with
  | nil => rfl
  | cons a as ih =>
    cases hc : (a.comment != "") with
    | true =>
      simp only [List.filterMap_cons, List.filter_cons, hc, if_true, List.map_cons,
        readPlayer_to_toml]
      rw [ih]
    | false =>
      simp only [List.filterMap_cons, List.filter_cons, hc, Bool.false_eq_true, if_false]
      exact ih

/-- C8: serializing the store (the `release` player filter composed
with `to_toml`) and reloading through `init_player_list` reproduces
exactly the (name, comment) pairs of the non-empty-comment entries in
order, and no empty-comment entry appears after the round trip. -/
theorem C8_round_trip (s : PlayerVecMap) :
    (init_player_list [("Players", .array (release_players s))]).player_list.map
        (fun p => (p.name, p.comment))
      = (s.player_list.filter (fun p => p.comment != "")).map
          (fun p => (p.name, p.comment)) ∧
    ∀ p ∈ (init_player_list [("Players", .array (release_players s))]).player_list,
      p.comment ≠ "" := by
  have hrt := round_trip_list s.player_list
  constructor
  · show ((s.player_list.filterMap fun player =>
        if player.comment != "" then some player.to_toml else none).filterMap
          readPlayer).map (fun p => (p.name, p.comment)) = _
    rw [hrt, List.map_map]
    rfl
  · intro p hp
    replace hp : p ∈ (s.player_list.filterMap fun player =>
        if player.comment != "" then some player.to_toml else none).filterMap
          readPlayer := hp
    rw [hrt] at hp
    obtain ⟨q, hq, hqe⟩ := List.mem_map.mp hp
    have hqc : q.comment ≠ "" := by simpa using (List.mem_filter.mp hq).2
    rw [← hqe]
    exact hqc

/-- Witness for C8 at a concrete store (`∀ p ∈ …` carries a
membership hypothesis). -/
theorem C8_round_trip_witness :
    (¬ (⟨"A", "A".toLower, "hi", "hi".toLower, false⟩ : Player).comment = "") ∧
    (init_player_list [("Players",
        TomlValue.array (release_players
          (PlayerVecMap.new.add_player "A" "hi")))]).player_list.map
        (fun p => (p.name, p.comment))
      = ((PlayerVecMap.new.add_player "A" "hi").player_list.filter
          (fun p => p.comment != "")).map (fun p => (p.name, p.comment)) := by
  constructor
  · exact (C8_round_trip (PlayerVecMap.new.add_player "A" "hi")).2
      ⟨"A", "A".toLower, "hi", "hi".toLower, false⟩ (List.Mem.head _)
  · exact (C8_round_trip (PlayerVecMap.new.add_player "A" "hi")).1

theorem init_player_list_eq (vals : List TomlValue) :
    init_player_list [("Players", .array vals)]
      = ⟨vals.filterMap readPlayer, build_player_map (vals.filterMap readPlayer)⟩ := rfl

theorem readPlayer_eq_extract (val : TomlValue) :
    readPlayer val = (extractNC val).map
      (fun nc => ⟨nc.1, nc.1.toLower, nc.2, nc.2.toLower, false⟩) := by
  unfold readPlayer extractNC
  cases val <;> try rfl
  split <;> split <;> simp_all

theorem filterMap_read_extract (vals : List TomlValue) :
    vals.filterMap readPlayer
      = (vals.filterMap extractNC).map
          (fun nc => ⟨nc.1, nc.1.toLower, nc.2, nc.2.toLower, false⟩) := by
  induction vals with
  | nil => rfl
  | cons v vs ih =>
    rw [List.filterMap_cons, List.filterMap_cons, readPlayer_eq_extract v]
    cases hv : extractNC v with
    | none => simpa using ih
    | some nc => simp [ih]

theorem build_map_aux_mem (ps : List Player) :
    ∀ (k : Nat) (m : String → Option Nat) (n : String) (i : Nat),
      ((ps.enumFrom k).foldl
          (fun m ip => fun x => if x = ip.2.name then some ip.1 else m x) m) n = some i →
      m n = some i ∨ ∃ j p, ps[j]? = some p ∧ p.name = n ∧ i = k + j := by
  induction ps with
  | nil =>
    intro k m n i h
    exact Or.inl h
  | cons a as ih =>
    intro k m n i h
    replace h : ((as.enumFrom (k + 1)).foldl
        (fun m ip => fun x => if x = ip.2.name then some ip.1 else m x)
        (fun x => if x = a.name then some k else m x)) n = some i := h
    rcases ih (k + 1) _ n i h with h1 | ⟨j, p, hj, hpn, hi⟩
    · replace h1 : (if n = a.name then some k else m n) = some i := h1
      by_cases hna : n = a.name
      · rw [if_pos hna] at h1
        have hk := Option.some.inj h1
        exact Or.inr ⟨0, a, by simp, hna.symm, by omega⟩
      · rw [if_neg hna] at h1
        exact Or.inl h1
    · exact Or.inr ⟨j + 1, p, by simpa using hj, hpn, by omega⟩

theorem build_map_aux_notmem (ps : List Player) :
    ∀ (k : Nat) (m : String → Option Nat) (n : String),
      (∀ p ∈ ps, p.name ≠ n) →
      ((ps.enumFrom k).foldl
          (fun m ip => fun x => if x = ip.2.name then some ip.1 else m x) m) n = m n := by
  induction ps with
  | nil =>
    intro k m n _
    rfl
  | cons a as ih =>
    intro k m n hne
    have h' := ih (k + 1) (fun x => if x = a.name then some k else m x) n
      (fun p hp => hne p (List.mem_cons_of_mem _ hp))
    have hfin : (if n = a.name then some k else m n) = m n := by
      rw [if_neg (fun hEq => hne a (by simp) hEq.symm)]
    exact h'.trans hfin

theorem build_map_aux_get (ps : List Player) :
    ∀ (k : Nat) (m : String → Option Nat) (j : Nat) (p : Player),
      ps[j]? = some p → (ps.map Player.name).Nodup →
      ((ps.enumFrom k).foldl
          (fun m ip => fun x => if x = ip.2.name then some ip.1 else m x) m) p.name
        = some (k + j) := by
  induction ps with
  | nil =>
    intro k m j p h _
    simp at h
  | cons a as ih =>
    intro k m j p hj hnd
    have hnd2 : (∀ x ∈ as, ¬ x.name = a.name) ∧ (as.map Player.name).Nodup := by
      simpa using hnd
    cases j with
    | zero =>
      have hap : a = p := by simpa using hj
      subst hap
      have hnot : ∀ q ∈ as, q.name ≠ a.name := hnd2.1
      have h1 := build_map_aux_notmem as (k + 1)
        (fun x => if x = a.name then some k else m x) a.name hnot
      have hfin : (if a.name = a.name then some k else m a.name) = some (k + 0) := by
        rw [if_pos rfl, Nat.add_zero]
      exact h1.trans hfin
    | succ j' =>
      have hj' : as[j']? = some p := by simpa using hj
      have h1 := ih (k + 1) (fun x => if x = a.name then some k else m x) j' p hj' hnd2.2
      have hplus : (k + 1) + j' = k + (j' + 1) := by omega
      rw [hplus] at h1
      exact h1

/-- C10: hydration keeps exactly the table records carrying a string
`name` and a string `comment` (skipping all others, in order), loads
every entry out of the squad, maps every index key to a position
holding that name, and — when the kept names are pairwise distinct —
satisfies the full sequence/index bijection. -/
theorem C10_hydration (vals : List TomlValue) :
    ((init_player_list [("Players", .array vals)]).player_list.map
        (fun p => (p.name, p.comment)) = vals.filterMap extractNC) ∧
    (∀ p ∈ (init_player_list [("Players", .array vals)]).player_list,
      p.in_squad = false) ∧
    (∀ (n : String) (i : Nat),
      (init_player_list [("Players", .array vals)]).name_dict n = some i →
      ∃ p, (init_player_list [("Players", .array vals)]).player_list[i]? = some p ∧
        p.name = n) ∧
    (((vals.filterMap extractNC).map Prod.fst).Nodup →
      wf (init_player_list [("Players", .array vals)])) := by
  have hfm := filterMap_read_extract vals
  have hfwd : ∀ (n : String) (i : Nat),
      build_player_map (vals.filterMap readPlayer) n = some i →
      ∃ p, (vals.filterMap readPlayer)[i]? = some p ∧ p.name = n := by
    intro n i h
    replace h : (((vals.filterMap readPlayer).enumFrom 0).foldl
        (fun m ip => fun x => if x = ip.2.name then some ip.1 else m x)
        (fun _ => none)) n = some i := h
    rcases build_map_aux_mem (vals.filterMap readPlayer) 0 (fun _ => none) n i h with
      h1 | ⟨j, p, hj, hpn, hi⟩
    · exact absurd h1 (by simp)
    · have hij : i = j := by omega
      subst hij
      exact ⟨p, hj, hpn⟩
  have hnames : (vals.filterMap readPlayer).map Player.name
      = (vals.filterMap extractNC).map Prod.fst := by
    rw [hfm, List.map_map]
    rfl
  refine ⟨?_, ?_, ?_, ?_⟩
  · show ((vals.filterMap readPlayer).map (fun p => (p.name, p.comment))) = _
    rw [hfm, List.map_map]
    show (vals.filterMap extractNC).map (fun nc => (nc.1, nc.2)) = vals.filterMap extractNC
    simp
  · intro p hp
    replace hp : p ∈ vals.filterMap readPlayer := hp
    rw [hfm] at hp
    obtain ⟨nc, hnc, hpe⟩ := List.mem_map.mp hp
    rw [← hpe]
  · intro n i h
    replace h : build_player_map (vals.filterMap readPlayer) n = some i := h
    exact hfwd n i h
  · intro hnd
    have hnd' : ((vals.filterMap readPlayer).map Player.name).Nodup := by
      rw [hnames]
      exact hnd
    constructor
    · intro n i h
      replace h : build_player_map (vals.filterMap readPlayer) n = some i := h
      exact hfwd n i h
    · intro i p hp
      replace hp : (vals.filterMap readPlayer)[i]? = some p := hp
      show build_player_map (vals.filterMap readPlayer) p.name = some i
      have h1 := build_map_aux_get (vals.filterMap readPlayer) 0 (fun _ => none) i p hp hnd'
      have h2 : (0 : Nat) + i = i := by omega
      rw [h2] at h1
      exact h1

/-- Witness for C10 on a concrete persisted array with one malformed
record. -/
theorem C10_hydration_witness :
    wf (init_player_list [("Players", TomlValue.array
      [.table [("name", .str "A"), ("comment", .str "x")],
       .boolean true,
       .table [("name", .str "B"), ("comment", .str "y")]])]) :=
  (C10_hydration
    [.table [("name", .str "A"), ("comment", .str "x")],
     .boolean true,
     .table [("name", .str "B"), ("comment", .str "y")]]).2.2.2 (by decide)
